import Mathlib

set_option maxRecDepth 100000

/-!
# Verification of the hoip (HID-over-IP) repository

Shallow embedding of the hoip codebase in Lean 4 and proofs about it.

Embedded components (faithful translations of the Rust source):
* `Crc8` — `src/discovery/crc.rs` (CRC-8 table construction and folding).
* `Packet` — `src/discovery/packet.rs` (7-byte discovery packet).
* `Codec` — `src/codec.rs` (8-byte big-endian event frames).
* `Magic` — `src/bin/hoips/magic.rs` (magic-chord detector).
* client session state — `src/bin/hoipc/app.rs` (pressed-keys tracking and
  the stuck-key drop guard).
* peer selection step — `src/bin/hoips/main.rs` (the `stream::unfold` body
  of `return_on_timeout`, with the `tokio::select!` race modelled by an
  explicit race-winner argument).

Machine integers are modelled as `Nat` (for `u8`/`u16`) and `Int` (for
`i32`), with explicit `% 2 ^ w` where the Rust code truncates.
-/

namespace Hoip

/-! ## CRC-8 (`src/discovery/crc.rs`)

The Rust code builds a 256-entry table at compile time:

```
let mut table = [0u8; 256];
let mut crc = 0x80;
let mut i = 1u8;
while i > 0 {
    crc = (crc << 1) ^ if crc & 0x80 != 0 { polynomial } else { 0 };
    let mut j = 0;
    while j < i {
        table[i.wrapping_add(j) as usize] = crc ^ table[j as usize];
        j += 1;
    }
    i <<= 1;
}
```

`crc` and `i` are `u8`, so `crc << 1` truncates mod 256 and the loop runs
for `i = 1, 2, 4, …, 128` and stops when `i <<= 1` wraps to `0`.  The
condition `crc & 0x80 != 0` reads the pre-shift value of `crc`.
-/

/-- One inner `while j < i` loop: `table[i + j] = crc ^ table[j]` for
`j < i` (`i + j ≤ 255`, so `wrapping_add` never wraps). -/
def crcFillRow (i crc : Nat) (table : List Nat) : List Nat :=
  (List.range i).foldl (fun t j => t.set ((i + j) % 256) (crc ^^^ t.getD j 0)) table

/-- The outer `while i > 0` loop, with fuel (the Rust loop runs exactly 8
iterations: `i = 1, 2, 4, …, 128`). -/
def crcBuild (polynomial : Nat) : Nat → Nat → Nat → List Nat → List Nat
  | 0, _, _, t => t
  | fuel + 1, i, crc, t =>
    if i = 0 then t
    else
      let crc := (crc * 2 % 256) ^^^ (if crc &&& 0x80 ≠ 0 then polynomial else 0)
      crcBuild polynomial fuel (i * 2 % 256) crc (crcFillRow i crc t)

/-- Rust `Crc8::create(polynomial)`: the 256-entry table. -/
def Crc8.create (polynomial : Nat) : List Nat :=
  crcBuild polynomial 9 1 0x80 (List.replicate 256 0)

/-- Rust `Crc8::calc(&self, buffer, len, crc)`: fold the first `len` bytes of
`buffer` through the table. -/
def Crc8.calc (table : List Nat) (buffer : List Nat) (len : Nat) (crc : Nat) : Nat :=
  (buffer.take len).foldl (fun crc b => table.getD (crc ^^^ b) 0) crc

/-- The constant `CRC8_9B`, the table for polynomial `0x9B` (`src/discovery/crc.rs`). -/
def CRC8_9B : List Nat := Crc8.create 0x9b

end Hoip

namespace Hoip

/-! ## Discovery packet (`src/discovery/packet.rs`)

```
#[repr(C, packed(1))]
pub struct Packet {
    pfx: [u8; 4],
    pub port: u16,
    crc: u8,
}
```

`as_bytes` casts the packed struct to `&[u8; 7]`, so the `u16` port field
appears in the byte slice in the *target's native* byte order.  hoip is a
Linux/evdev program built for little-endian targets (x86-64, aarch64), so
the low byte of `port` comes first; the embedding models that layout.
-/

/-- The constant `DISC_PFX`, the four ASCII bytes of HOIP. -/
def DISC_PFX : List Nat := [0x48, 0x4F, 0x49, 0x50]

/-- The packed `Packet` struct.  `port` is a `u16`, `crc` a `u8`. -/
structure Packet where
  pfx : List Nat
  port : Nat
  crc : Nat
deriving DecidableEq

/-- Rust `Packet::as_bytes`: the packed struct viewed as 7 bytes.  On the
little-endian targets the program is built for, the `u16` port appears low
byte first. -/
def Packet.as_bytes (p : Packet) : List Nat :=
  p.pfx ++ [p.port % 256, p.port / 256 % 256, p.crc]

/-- Rust `Packet::crc(&self)`: CRC-8 over all bytes but the last (the CRC slot
itself), with initial value 0.  (Named `crcCompute` because the Rust
method `crc` shares its name with the field.) -/
def Packet.crcCompute (p : Packet) : Nat :=
  Crc8.calc CRC8_9B p.as_bytes (p.as_bytes.length - 1) 0

/-- Rust `Packet::new(port)`: prefix `"HOIP"`, the given port, then
`update_crc`. -/
def Packet.new (port : Nat) : Packet :=
  let this : Packet := ⟨DISC_PFX, port, 0⟩
  { this with crc := this.crcCompute }

/-- Rust `Packet::validate_crc`. -/
def Packet.validate_crc (p : Packet) : Bool :=
  p.crc == p.crcCompute

/-- Rust `Packet::try_from_bytes`: reject unless the length is exactly 7, the
first four bytes are `"HOIP"` and the CRC byte matches the CRC-8 of the
first six bytes; otherwise reinterpret the bytes as a `Packet` (the Rust
code returns a reference into the very same bytes, so the port is read
back in native — little-endian — byte order). -/
def Packet.try_from_bytes (bytes : List Nat) : Option Packet :=
  if bytes.length ≠ 7 then none
  else if bytes.take 4 ≠ DISC_PFX then none
  else if bytes.getD 6 0 ≠ Crc8.calc CRC8_9B bytes 6 0 then none
  else some ⟨bytes.take 4, bytes.getD 4 0 + 256 * bytes.getD 5 0, bytes.getD 6 0⟩

/-- Rust `Packet::is_request`. -/
def Packet.is_request (p : Packet) : Bool :=
  p.port == 0

/-- The discovery packet bytes as the *spec's words* describe them — port
serialized big-endian (high byte at offset 4).  This definition follows
the spec, not the source; it exists only to compare the layouts. -/
def Packet.spec_bytes_be (p : Packet) : List Nat :=
  p.pfx ++ [p.port / 256 % 256, p.port % 256, p.crc]

/-! ## Wire codec (`src/codec.rs`)

`encode` appends `u16 type`, `u16 code`, `i32 value` in big-endian order
(`bytes::BufMut::put_u16` / `put_i32` are big-endian) and always returns
`Ok(())`.  `decode` returns `Ok(None)` when fewer than 8 bytes are
buffered, otherwise consumes exactly 8 bytes and builds an event (no
validation of any field; the timestamp, which `InputEvent::new_now`
synthesizes locally, is not part of the wire data and is not modelled).
-/

/-- An input event `(type, code, value)`; `type` and `code` are `u16`,
`value` an `i32`. -/
structure Event where
  type : Nat
  code : Nat
  value : Int
deriving DecidableEq

/-- Rust `put_u16` (big-endian). -/
def putU16 (n : Nat) : List Nat :=
  [n / 256 % 256, n % 256]

/-- Rust `put_i32` (big-endian two's complement). -/
def putI32 (v : Int) : List Nat :=
  let u := (v % (2 ^ 32 : Int)).toNat
  [u / 2 ^ 24 % 256, u / 2 ^ 16 % 256, u / 2 ^ 8 % 256, u % 256]

/-- Rust `Codec::encode`: push the 8 frame bytes onto `dst`; infallible (the
Rust body ends in `Ok(())`), so the result is `Except.ok` always. -/
def Codec.encode (item : Event) (dst : List Nat) : Except Unit (List Nat) :=
  .ok (dst ++ putU16 item.type ++ putU16 item.code ++ putI32 item.value)

/-- Rust `get_u16` (big-endian) on the first two bytes. -/
def getU16 (src : List Nat) : Nat :=
  src.getD 0 0 * 256 + src.getD 1 0

/-- Rust `get_i32` (big-endian two's complement) on the first four bytes. -/
def getI32 (src : List Nat) : Int :=
  let u : Nat := src.getD 0 0 * 2 ^ 24 + src.getD 1 0 * 2 ^ 16 + src.getD 2 0 * 2 ^ 8 + src.getD 3 0
  if u < 2 ^ 31 then (u : Int) else (u : Int) - 2 ^ 32

/-- Rust `Codec::decode`: `Ok(None)` when fewer than 8 bytes remain, else
consume exactly 8 bytes and yield the event together with the rest of the
buffer.  The error branch is never taken. -/
def Codec.decode (src : List Nat) : Except Unit (Option Event × List Nat) :=
  if src.length < 8 then .ok (none, src)
  else .ok (some ⟨getU16 src, getU16 (src.drop 2), getI32 (src.drop 4)⟩, src.drop 8)

end Hoip

namespace Hoip

/-! ## Magic-chord detector (`src/bin/hoips/magic.rs`)

```
pub struct Magic {
    keys: BTreeMap<KeyCode, i32>,
    armed: bool,
}
```

The `BTreeMap` is modelled as an association list from key code to value;
`Magic::from_iter` stores every chord key with value 0.  `Magic::key`:

```
fn key(&mut self, key_code: KeyCode, value: i32) -> bool {
    if let Entry::Occupied(mut entry) = self.keys.entry(key_code) {
        entry.insert(value);
        if self.armed && self.keys.values().all(|v| *v == 0) {
            self.armed = false;
            return true;
        }
        self.armed |= self.keys.values().all(|v| *v != 0);
    }
    false
}
```
-/

/-- Chord-detector state: per-chord-key value map plus the `armed` flag. -/
structure Magic where
  keys : List (Nat × Int)
  armed : Bool
deriving DecidableEq

/-- Rust `Magic::from_iter`: every chord key mapped to 0, not armed. -/
def Magic.from_iter (ks : List Nat) : Magic :=
  ⟨ks.map (fun k => (k, 0)), false⟩

/-- All chord keys released (`values().all(|v| *v == 0)`). -/
def Magic.allUp (m : Magic) : Bool :=
  m.keys.all (fun p => p.2 == 0)

/-- All chord keys held (`values().all(|v| *v != 0)`). -/
def Magic.allDown (m : Magic) : Bool :=
  m.keys.all (fun p => p.2 != 0)

/-- Rust `entry.insert(value)`: the key map after storing `value` for
`key_code`. -/
def Magic.updKeys (m : Magic) (key_code : Nat) (value : Int) : List (Nat × Int) :=
  m.keys.map fun p => if p.1 = key_code then (p.1, value) else p

/-- Rust `Magic::key`: returns the new state and whether the chord signalled.
A key that is not in the map (`Entry::Vacant`) leaves the state untouched
and never signals. -/
def Magic.key (m : Magic) (key_code : Nat) (value : Int) : Magic × Bool :=
  if (m.keys.lookup key_code).isSome then
    if m.armed && (Magic.mk (m.updKeys key_code value) m.armed).allUp then
      (⟨m.updKeys key_code value, false⟩, true)
    else
      (⟨m.updKeys key_code value,
        m.armed || (Magic.mk (m.updKeys key_code value) m.armed).allDown⟩, false)
  else (m, false)

/-- Run the detector over a list of key events, collecting the signal flag
of every event (the stream view used by `Magic::map_stream`). -/
def Magic.run (m : Magic) : List (Nat × Int) → List Bool
  | [] => []
  | (k, v) :: rest => (m.key k v).2 :: (m.key k v).1.run rest

/-- The states the detector passes through while consuming a list of key
events (`m` itself first). -/
def Magic.states (m : Magic) : List (Nat × Int) → List Magic
  | [] => [m]
  | (k, v) :: rest => m :: (m.key k v).1.states rest

/-! ## Client session (`src/bin/hoipc/app.rs`)

`App::connect_loop` decodes frames and, per event (`destructure`):
* `EventSummary::Key(_, key_code, value)` — remove `key_code` from
  `pressed_keys` when `value == 0`, insert it otherwise, then (no
  `continue` in that arm) push the event onto the batch `buf`;
* `EventSummary::Synchronization(_, SYN_REPORT, 0)` — emit the batch to
  the virtual device and clear it (`continue`, so this event is not
  pushed);
* anything else — push onto the batch.

`EventSummary::Key` corresponds to event type `EV_KEY = 1`;
`Synchronization(_, SYN_REPORT, 0)` to type `EV_SYN = 0`, code
`SYN_REPORT = 0`, value `0`.

The `pressed_keys` `BTreeSet<KeyCode>` is modelled as a `Finset Nat`.
-/

/-- The constant `EV_KEY`. -/
def EV_KEY : Nat := 1

/-- Client connection-loop state: the `pressed_keys` set, the batch
buffer, and the batches emitted to the virtual device so far. -/
structure ClientSt where
  pressed_keys : Finset Nat
  buf : List Event
  emitted : List (List Event)
deriving DecidableEq

/-- The state at the top of `connect_loop`: everything empty. -/
def ClientSt.init : ClientSt := ⟨∅, [], []⟩

/-- One iteration of the `while let Some(next) = framed.try_next()` body. -/
def ClientSt.step (st : ClientSt) (e : Event) : ClientSt :=
  if e.type = EV_KEY then
    { st with
        pressed_keys :=
          if e.value = 0 then st.pressed_keys.erase e.code
          else insert e.code st.pressed_keys,
        buf := st.buf ++ [e] }
  else if e.type = 0 ∧ e.code = 0 ∧ e.value = 0 then
    { st with emitted := st.emitted ++ [st.buf], buf := [] }
  else
    { st with buf := st.buf ++ [e] }

/-- Fold the loop body over a list of decoded events. -/
def ClientSt.run (st : ClientSt) (evts : List Event) : ClientSt :=
  evts.foldl ClientSt.step st

/-- The synthetic key-up events `DropGuard::drop` builds: it pops
`pressed_keys` in ascending order (`BTreeSet::pop_first`) into a vector of
`(EV_KEY, key, 0)` events. -/
def dropGuardEvents (pressed : Finset Nat) : List Event :=
  (pressed.sort (· ≤ ·)).map fun k => ⟨EV_KEY, k, 0⟩

/-- Rust `DropGuard::drop`: drain `pressed_keys` into the key-up events, then
`emit`.  The set is drained *before* the emit call, and an emit failure is
only logged, so the resulting set is empty whether or not the emission
succeeded (`emitOk`). -/
def dropGuardRun (pressed : Finset Nat) (emitOk : Bool) :
    List Event × Finset Nat :=
  (dropGuardEvents pressed, if emitOk then ∅ else ∅)

end Hoip

namespace Hoip

/-! ## Peer selection step (`src/bin/hoips/main.rs`, `return_on_timeout`)

The discovery-mode peer selector is `futures::stream::unfold` over a state
holding `cache: VecDeque<SocketAddr>` and the `discovered()` stream,
sharing the `invalid_peers: Mutex<BTreeSet<SocketAddr>>` blacklist with
the main loop.  Each unfold step:

```
{
    let mut bad = invalid_peers.lock().unwrap();
    st.cache.retain(|elt| !bad.contains(elt));
    bad.clear();
}
let try_next = async { loop {
    let next = st.discovered.next().await?;
    if let Ok(value) = next && st.cache.contains(&value) { continue; }
    break Some(next);
} };
let discover = discovery.discover(config.discovery_request_period);
let timeout = tokio::time::sleep(config.discovery_cache_timeout);
let value = tokio::select! {
    peer = try_next => Some(peer?),
    err = discover => Some(err.map(|never| match never {})),
    _ = timeout, if !st.cache.is_empty() => None,
};
let value = value.unwrap_or_else(|| {
    let peer = st.cache.pop_front().unwrap();
    Ok(peer)
});
if let Ok(value) = value { st.cache.push_back(value); }
Some((value, st))
```

Peer addresses are modelled as `Nat`; the items of `discovered()` as a
script (list) of `DiscItem`; the nondeterministic `tokio::select!` race by
a `RaceWinner` argument saying which enabled arm finished first.  The
result is `none` when the chosen arm cannot win (the timeout arm is
guarded by `if !st.cache.is_empty()`), and otherwise carries what the
unfold step produces: `none` for end-of-stream (`peer?` propagating `None`
from an exhausted `discovered()`), or the yielded `DiscItem` plus the new
cache and new blacklist. -/

/-- A peer address (`SocketAddr`). -/
abbrev Addr := Nat

/-- An item of the `discovered()` stream: a discovered address or an I/O
error. -/
inductive DiscItem where
  | ok (a : Addr)
  | err
deriving DecidableEq

/-- Which enabled `tokio::select!` arm finishes first. -/
inductive RaceWinner where
  | tryNext
  | discoverErr
  | timeout
deriving DecidableEq

/-- The `try_next` fishing loop: take the next item of `discovered()`,
skipping `Ok` addresses already in the cache; `none` when the stream
ends. -/
def tryNextLoop (cache : List Addr) : List DiscItem → Option DiscItem
  | [] => none
  | .ok a :: rest => if cache.contains a then tryNextLoop cache rest else some (.ok a)
  | .err :: _ => some .err

/-- What one unfold step of `return_on_timeout` yields: the produced
stream item (an address or an error) and the updated selector state. -/
structure SelYield where
  item : DiscItem
  cache : List Addr
  bad : List Addr
deriving DecidableEq

/-- One unfold step of `return_on_timeout`.  `cache`/`bad` are the state
on entry, `script` the pending items of `discovered()`, `w` the race arm
that finished first.  Outer `none`: the chosen arm was not enabled (only
possible for the cache-timeout arm with an empty cache).  Inner `none`:
the unfold closure returned `None` (selector stream ends). -/
def selStep (cache bad : List Addr) (script : List DiscItem) (w : RaceWinner) :
    Option (Option SelYield) :=
  let cache := cache.filter (fun elt => !bad.contains elt)
  match w with
  | .tryNext =>
    match tryNextLoop cache script with
    | none => some none
    | some (.ok a) => some (some ⟨.ok a, cache ++ [a], []⟩)
    | some .err => some (some ⟨.err, cache, []⟩)
  | .discoverErr => some (some ⟨.err, cache, []⟩)
  | .timeout =>
    match cache with
    | [] => none
    | peer :: rest => some (some ⟨.ok peer, rest ++ [peer], []⟩)

/-- The main server loop on a failed connection attempt
(`magic::Error::Other`): `invalid_peers.lock().unwrap().insert(remote)`
(`BTreeSet` insert, modelled on a duplicate-free list). -/
def blacklistInsert (bad : List Addr) (a : Addr) : List Addr :=
  if bad.contains a then bad else bad ++ [a]

end Hoip

namespace Hoip

/-! ## Proof support -/

/-- One table-lookup step of `Crc8::calc` with the `CRC8_9B` table (the
closure `fun crc b => table.getD (crc ^^^ b) 0` specialised to the table
the program uses). -/
def crcStep (s b : Nat) : Nat := CRC8_9B.getD (s ^^^ b) 0

end Hoip

namespace Hoip

/-! ## Theorems -/

/-- The `CRC8_9B` table, fully evaluated. -/
theorem CRC8_9B_eq : CRC8_9B = [0, 155, 173, 54, 193, 90, 108, 247, 25, 130, 180, 47, 216, 67, 117, 238, 50, 169, 159, 4, 243, 104, 94, 197, 43, 176, 134, 29, 234, 113, 71, 220, 100, 255, 201, 82, 165, 62, 8, 147, 125, 230, 208, 75, 188, 39, 17, 138, 86, 205, 251, 96, 151, 12, 58, 161, 79, 212, 226, 121, 142, 21, 35, 184, 200, 83, 101, 254, 9, 146, 164, 63, 209, 74, 124, 231, 16, 139, 189, 38, 250, 97, 87, 204, 59, 160, 150, 13, 227, 120, 78, 213, 34, 185, 143, 20, 172, 55, 1, 154, 109, 246, 192, 91, 181, 46, 24, 131, 116, 239, 217, 66, 158, 5, 51, 168, 95, 196, 242, 105, 135, 28, 42, 177, 70, 221, 235, 112, 11, 144, 166, 61, 202, 81, 103, 252, 18, 137, 191, 36, 211, 72, 126, 229, 57, 162, 148, 15, 248, 99, 85, 206, 32, 187, 141, 22, 225, 122, 76, 215, 111, 244, 194, 89, 174, 53, 3, 152, 118, 237, 219, 64, 183, 44, 26, 129, 93, 198, 240, 107, 156, 7, 49, 170, 68, 223, 233, 114, 133, 30, 40, 179, 195, 88, 110, 245, 2, 153, 175, 52, 218, 65, 119, 236, 27, 128, 182, 45, 241, 106, 92, 199, 48, 171, 157, 6, 232, 115, 69, 222, 41, 178, 132, 31, 167, 60, 10, 145, 102, 253, 203, 80, 190, 37, 19, 136, 127, 228, 210, 73, 149, 14, 56, 163, 84, 207, 249, 98, 140, 23, 33, 186, 77, 214, 224, 123] := by decide

/-- Every entry of the CRC table is a byte. -/
theorem crc8_table_all_lt : CRC8_9B.all (fun x => x < 256) = true := by
  rw [CRC8_9B_eq]; decide

/-- The CRC table has 256 entries. -/
theorem crc8_table_length : CRC8_9B.length = 256 := by
  rw [CRC8_9B_eq]; rfl

/-- The CRC table is a permutation of the bytes (no duplicate entries);
this holds because the polynomial `0x9B` has its low bit set. -/
theorem crc8_table_nodup : CRC8_9B.Nodup := by
  rw [CRC8_9B_eq]; decide

/-- The step `crcStep` always produces a byte. -/
theorem crcStep_lt (s b : Nat) : crcStep s b < 256 := by
  unfold crcStep
  rcases lt_or_le (s ^^^ b) CRC8_9B.length with h | h
  · rw [List.getD_eq_getElem _ _ h]
    have := List.all_eq_true.mp crc8_table_all_lt _ (List.getElem_mem h)
    simpa using this
  · rw [List.getD_eq_default _ _ h]; norm_num

/-- The CRC table is injective on byte-sized indices. -/
theorem crc8_table_getD_inj {i j : Nat} (hi : i < 256) (hj : j < 256)
    (hne : i ≠ j) : CRC8_9B.getD i 0 ≠ CRC8_9B.getD j 0 := by
  have hi' : i < CRC8_9B.length := by rw [crc8_table_length]; exact hi
  have hj' : j < CRC8_9B.length := by rw [crc8_table_length]; exact hj
  rw [List.getD_eq_getElem _ _ hi', List.getD_eq_getElem _ _ hj']
  intro h
  exact hne ((crc8_table_nodup.getElem_inj_iff).mp h)

/-- The step `crcStep` is injective in the state argument. -/
theorem crcStep_inj_state {s1 s2 b : Nat} (h1 : s1 < 256) (h2 : s2 < 256)
    (hb : b < 256) (hne : s1 ≠ s2) : crcStep s1 b ≠ crcStep s2 b := by
  unfold crcStep
  have hx1 : s1 ^^^ b < 2 ^ 8 := Nat.xor_lt_two_pow h1 hb
  have hx2 : s2 ^^^ b < 2 ^ 8 := Nat.xor_lt_two_pow h2 hb
  refine crc8_table_getD_inj hx1 hx2 ?_
  intro h
  exact hne (Nat.xor_left_inj.mp h)

/-- The step `crcStep` is injective in the byte argument. -/
theorem crcStep_inj_byte {s b1 b2 : Nat} (hs : s < 256) (h1 : b1 < 256)
    (h2 : b2 < 256) (hne : b1 ≠ b2) : crcStep s b1 ≠ crcStep s b2 := by
  unfold crcStep
  have hx1 : s ^^^ b1 < 2 ^ 8 := Nat.xor_lt_two_pow hs h1
  have hx2 : s ^^^ b2 < 2 ^ 8 := Nat.xor_lt_two_pow hs h2
  refine crc8_table_getD_inj hx1 hx2 ?_
  intro h
  exact hne (Nat.xor_right_inj.mp h)

end Hoip

namespace Hoip

/-- C8: the CRC-8 table is built from polynomial `0x9B` by `Crc8::create`,
and `calc` over the ASCII bytes of `"123456789"` gives `0xDA` from initial
value `0xFF` and `0xEA` from `0x00`; over `"987654321"` it gives `0x58`
from `0xFF` and `0x68` from `0x00`. -/
theorem crc8_fixture_values :
    CRC8_9B = Crc8.create 0x9b ∧
    Crc8.calc CRC8_9B [49, 50, 51, 52, 53, 54, 55, 56, 57] 9 0xFF = 0xDA ∧
    Crc8.calc CRC8_9B [49, 50, 51, 52, 53, 54, 55, 56, 57] 9 0x00 = 0xEA ∧
    Crc8.calc CRC8_9B [57, 56, 55, 54, 53, 52, 51, 50, 49] 9 0xFF = 0x58 ∧
    Crc8.calc CRC8_9B [57, 56, 55, 54, 53, 52, 51, 50, 49] 9 0x00 = 0x68 := by
  refine ⟨rfl, ?_, ?_, ?_, ?_⟩ <;> (rw [CRC8_9B_eq]; decide)

/-- C9: encoding the key press `(EV_KEY = 1, code 30, value 1)` appends
exactly the bytes `00 01 00 1E 00 00 00 01` to the output buffer, and
`Codec::encode` never fails. -/
theorem encode_keypress_s1 :
    (∀ dst : List Nat, Codec.encode ⟨1, 30, 1⟩ dst =
      .ok (dst ++ [0x00, 0x01, 0x00, 0x1E, 0x00, 0x00, 0x00, 0x01])) ∧
    ∀ (item : Event) (dst : List Nat), ∃ out, Codec.encode item dst = .ok out := by
  constructor
  · intro dst
    simp [Codec.encode, putU16, putI32]
  · intro item dst
    exact ⟨_, rfl⟩

/-- C10: `Codec::decode` never returns its error variant: with fewer than
8 buffered bytes it returns "need more" and leaves the buffer unchanged;
with at least 8 it consumes exactly 8 and yields an event, with no
validation of the fields (any 8 bytes decode to some event). -/
theorem decode_total_no_validation :
    (∀ src : List Nat, src.length < 8 → Codec.decode src = .ok (none, src)) ∧
    (∀ src : List Nat, 8 ≤ src.length →
      ∃ e : Event, Codec.decode src = .ok (some e, src.drop 8)) ∧
    (∀ src : List Nat, ∃ r, Codec.decode src = .ok r) := by
  refine ⟨fun src h => ?_, fun src h => ?_, fun src => ?_⟩
  · unfold Codec.decode
    rw [if_pos h]
  · refine ⟨⟨getU16 src, getU16 (src.drop 2), getI32 (src.drop 4)⟩, ?_⟩
    unfold Codec.decode
    rw [if_neg (by omega)]
  · unfold Codec.decode
    split <;> exact ⟨_, rfl⟩

/-- Witness for C10 at concrete inputs: a 3-byte buffer is left alone, a
9-byte buffer is consumed down to its ninth byte. -/
theorem decode_total_no_validation_witness :
    Codec.decode [1, 2, 3] = .ok (none, [1, 2, 3]) ∧
    ∃ e : Event, Codec.decode [0, 1, 0, 30, 0, 0, 0, 1, 99] = .ok (some e, [99]) := by
  constructor
  · exact decode_total_no_validation.1 [1, 2, 3] (by decide)
  · have h := decode_total_no_validation.2.1 [0, 1, 0, 30, 0, 0, 0, 1, 99] (by decide)
    simpa using h

end Hoip

namespace Hoip

/-- Decoding an explicit 8-byte frame followed by `rest` consumes exactly
the 8 frame bytes. -/
theorem decode_cons (b0 b1 b2 b3 b4 b5 b6 b7 : Nat) (rest : List Nat) :
    Codec.decode (b0 :: b1 :: b2 :: b3 :: b4 :: b5 :: b6 :: b7 :: rest) =
      .ok (some ⟨b0 * 256 + b1, b2 * 256 + b3,
        getI32 (b4 :: b5 :: b6 :: b7 :: rest)⟩, rest) := by
  unfold Codec.decode
  rw [if_neg (by simp)]
  simp [getU16]

/-- C6: for every event triple with 16-bit unsigned type and code and
32-bit signed value, decoding the encoded frame yields the triple back
and consumes exactly the 8 frame bytes, whatever follows them. -/
theorem codec_round_trip (t c : Nat) (v : Int)
    (ht : t < 2 ^ 16) (hc : c < 2 ^ 16)
    (hv1 : -2 ^ 31 ≤ v) (hv2 : v < 2 ^ 31) :
    ∃ frame : List Nat, Codec.encode ⟨t, c, v⟩ [] = .ok frame ∧
      frame.length = 8 ∧
      ∀ rest : List Nat, Codec.decode (frame ++ rest) = .ok (some ⟨t, c, v⟩, rest) := by
  have hu0 : (0 : Int) ≤ v % 2 ^ 32 := Int.emod_nonneg v (by norm_num)
  have hult : v % 2 ^ 32 < 2 ^ 32 := Int.emod_lt_of_pos v (by norm_num)
  have huv : (((v % (2 ^ 32 : Int)).toNat : Nat) : Int) = v % 2 ^ 32 :=
    Int.toNat_of_nonneg hu0
  refine ⟨_, rfl, by simp [putU16, putI32], fun rest => ?_⟩
  show Codec.decode (([] ++ putU16 t ++ putU16 c ++ putI32 v) ++ rest) = _
  simp only [putU16, putI32, List.nil_append, List.cons_append, List.append_assoc,
    List.nil_append]
  rw [decode_cons]
  simp only [Except.ok.injEq, Prod.mk.injEq, Option.some.injEq, Event.mk.injEq, and_true]
  refine ⟨by omega, by omega, ?_⟩
  set u : Nat := (v % (2 ^ 32 : Int)).toNat with hu
  have hu32 : u < 2 ^ 32 := by omega
  unfold getI32
  simp only [List.getD_cons_zero, List.getD_cons_succ]
  have h3 : u / 2 ^ 24 % 256 * 2 ^ 24 + u / 2 ^ 16 % 256 * 2 ^ 16 +
      u / 2 ^ 8 % 256 * 2 ^ 8 + u % 256 = u := by omega
  rw [h3]
  split
  · omega
  · omega

/-- Witness for C6 at `(t, c, v) = (1, 30, -2)`. -/
theorem codec_round_trip_witness :
    ∃ frame : List Nat, Codec.encode ⟨1, 30, -2⟩ [] = .ok frame ∧
      frame.length = 8 ∧
      ∀ rest : List Nat, Codec.decode (frame ++ rest) = .ok (some ⟨1, 30, -2⟩, rest) :=
  codec_round_trip 1 30 (-2) (by decide) (by decide) (by decide) (by decide)

end Hoip

namespace Hoip

/-- C1 counterexample: the reply packet for port 27056 does *not* carry
the port big-endian.  `27056 = 0x69B0`, yet bytes 4..6 of
`Packet::new(27056)` are `B0 69` (the packed `u16` field is laid out in
the target's native little-endian order), so the packet is *not*
`48 4F 49 50 69 B0 CRC` as the claim states. -/
theorem packet_port_not_big_endian :
    (Packet.new 27056).as_bytes.take 6 = [0x48, 0x4F, 0x49, 0x50, 0xB0, 0x69] ∧
    (Packet.new 27056).as_bytes.take 6 ≠ [0x48, 0x4F, 0x49, 0x50, 0x69, 0xB0] := by
  constructor
  · rfl
  · decide

/-- C1 amended: the 7-byte discovery packet carries its port field
*little-endian* (native byte order of the packed struct on the targets
the program is built for) at bytes 4..6: for every 16-bit port the bytes
of `Packet::new(port)` are the ASCII prefix `HOIP`, the port's *low*
byte, then its *high* byte, then the CRC; the spec's big-endian layout
(`spec_bytes_be`) swaps bytes 4 and 5.  For port 27056 the bytes are
`48 4F 49 50 B0 69 76`. -/
theorem packet_port_little_endian (port : Nat) (h : port < 2 ^ 16) :
    (Packet.new port).as_bytes =
      [0x48, 0x4F, 0x49, 0x50, port % 256, port / 256, (Packet.new port).crc] ∧
    (Packet.new port).spec_bytes_be =
      [0x48, 0x4F, 0x49, 0x50, port / 256, port % 256, (Packet.new port).crc] ∧
    (Packet.new 27056).as_bytes = [0x48, 0x4F, 0x49, 0x50, 0xB0, 0x69, 0x76] := by
  have hd : port / 256 % 256 = port / 256 := by omega
  refine ⟨?_, ?_, by decide⟩
  · simp [Packet.new, Packet.as_bytes, DISC_PFX, hd]
  · simp [Packet.new, Packet.spec_bytes_be, DISC_PFX, hd]

/-- Witness for the amended C1 at port 27056. -/
theorem packet_port_little_endian_witness :
    27056 < 2 ^ 16 ∧
    (Packet.new 27056).as_bytes =
      [0x48, 0x4F, 0x49, 0x50, 27056 % 256, 27056 / 256, (Packet.new 27056).crc] :=
  ⟨by decide, (packet_port_little_endian 27056 (by decide)).1⟩

end Hoip

namespace Hoip

/-- The bytes of `Packet::new(port)`, with the CRC expanded to its chain
of table lookups. -/
theorem new_as_bytes (port : Nat) :
    (Packet.new port).as_bytes =
      [0x48, 0x4F, 0x49, 0x50, port % 256, port / 256 % 256,
        crcStep (crcStep (crcStep (crcStep (crcStep (crcStep 0 0x48) 0x4F) 0x49) 0x50)
          (port % 256)) (port / 256 % 256)] := rfl

/-- Evaluating `Packet::try_from_bytes` on an explicit 7-byte string, with the two
checks after the length check made explicit. -/
theorem try_from_bytes_cons (b0 b1 b2 b3 b4 b5 b6 : Nat) :
    Packet.try_from_bytes [b0, b1, b2, b3, b4, b5, b6] =
      if [b0, b1, b2, b3] ≠ DISC_PFX then none
      else if b6 ≠ crcStep (crcStep (crcStep (crcStep (crcStep (crcStep 0 b0) b1) b2) b3)
          b4) b5 then none
      else some ⟨[b0, b1, b2, b3], b4 + 256 * b5, b6⟩ := by
  unfold Packet.try_from_bytes
  rw [if_neg (by simp)]
  rfl

end Hoip

namespace Hoip

/-- C7: for every 16-bit port, parsing the 7 bytes built for that port
succeeds and returns a packet with the original port; changing any single
byte of that valid packet to any other byte value makes parsing reject
it; and parsing rejects any byte string whose length is not 7, whose
first four bytes are not `"HOIP"`, or whose CRC byte does not match the
CRC-8 of the first six bytes. -/
theorem packet_round_trip_and_reject :
    (∀ port : Nat, port < 2 ^ 16 →
      (Packet.new port).port = port ∧
      Packet.try_from_bytes (Packet.new port).as_bytes = some (Packet.new port)) ∧
    (∀ port : Nat, port < 2 ^ 16 → ∀ i : Nat, i < 7 → ∀ b : Nat, b < 256 →
      b ≠ (Packet.new port).as_bytes.getD i 0 →
      Packet.try_from_bytes ((Packet.new port).as_bytes.set i b) = none) ∧
    (∀ bytes : List Nat, bytes.length ≠ 7 → Packet.try_from_bytes bytes = none) ∧
    (∀ bytes : List Nat, bytes.take 4 ≠ DISC_PFX → Packet.try_from_bytes bytes = none) ∧
    (∀ bytes : List Nat, bytes.getD 6 0 ≠ Crc8.calc CRC8_9B bytes 6 0 →
      Packet.try_from_bytes bytes = none) := by
  have hchain : ∀ s b : Nat, crcStep s b < 256 := crcStep_lt
  refine ⟨?_, ?_, ?_, ?_, ?_⟩
  · intro port h
    refine ⟨rfl, ?_⟩
    rw [new_as_bytes, try_from_bytes_cons]
    rw [if_neg (by simp [DISC_PFX])]
    rw [if_neg (by simp)]
    rw [show port % 256 + 256 * (port / 256 % 256) = port from by omega]
    rfl
  · intro port hp i hi b hblt hb
    have hlo : port % 256 < 256 := by omega
    have hhi : port / 256 % 256 < 256 := by omega
    rw [new_as_bytes] at hb ⊢
    interval_cases i <;>
      simp only [List.getD_cons_zero, List.getD_cons_succ] at hb <;>
      simp only [List.set_cons_zero, List.set_cons_succ] <;>
      rw [try_from_bytes_cons]
    · rw [if_pos (by simp [DISC_PFX]; intro h; exact absurd h hb)]
    · rw [if_pos (by simp [DISC_PFX]; intro h; exact absurd h hb)]
    · rw [if_pos (by simp [DISC_PFX]; intro h; exact absurd h hb)]
    · rw [if_pos (by simp [DISC_PFX]; intro h; exact absurd h hb)]
    · rw [if_neg (by simp [DISC_PFX])]
      rw [if_pos (crcStep_inj_state (hchain _ _) (hchain _ _) hhi
        (crcStep_inj_byte (hchain _ _) hlo hblt (Ne.symm hb)))]
    · rw [if_neg (by simp [DISC_PFX])]
      rw [if_pos (crcStep_inj_byte (hchain _ _) hhi hblt (Ne.symm hb))]
    · rw [if_neg (by simp [DISC_PFX])]
      rw [if_pos hb]
  · intro bytes h
    unfold Packet.try_from_bytes
    rw [if_pos h]
  · intro bytes h
    unfold Packet.try_from_bytes
    by_cases hl : bytes.length ≠ 7
    · rw [if_pos hl]
    · rw [if_neg hl, if_pos h]
  · intro bytes h
    unfold Packet.try_from_bytes
    by_cases hl : bytes.length ≠ 7
    · rw [if_pos hl]
    · rw [if_neg hl]
      by_cases hp : bytes.take 4 ≠ DISC_PFX
      · rw [if_pos hp]
      · rw [if_neg hp, if_pos h]

/-- Witness for C7: round-trip at port 27056, rejection after zeroing the
first byte, rejection of a 3-byte string. -/
theorem packet_round_trip_witness :
    Packet.try_from_bytes (Packet.new 27056).as_bytes = some (Packet.new 27056) ∧
    Packet.try_from_bytes ((Packet.new 27056).as_bytes.set 0 0) = none ∧
    Packet.try_from_bytes [1, 2, 3] = none :=
  ⟨(packet_round_trip_and_reject.1 27056 (by decide)).2,
   packet_round_trip_and_reject.2.1 27056 (by decide) 0 (by decide) 0 (by decide)
     (by decide),
   packet_round_trip_and_reject.2.2.1 [1, 2, 3] (by decide)⟩

end Hoip

namespace Hoip

/-- A key with no entry in an association list looks up to `none`. -/
theorem lookup_none_of_not_mem_fst (l : List (Nat × Int)) (k : Nat)
    (h : k ∉ l.map Prod.fst) : l.lookup k = none := by
  induction l with
  | nil => rfl
  | cons p rest ih =>
    obtain ⟨a, b⟩ := p
    simp only [List.map_cons, List.mem_cons, not_or] at h
    have hne : (k == a) = false := by simpa using h.1
    simp [List.lookup, hne, ih h.2]

/-- A signal out of `Magic::key` requires the detector to have been
armed. -/
theorem magic_key_sig_armed (m : Magic) (k : Nat) (v : Int)
    (h : (m.key k v).2 = true) : m.armed = true := by
  unfold Magic.key at h
  split at h
  · split at h
    · rename_i hcond
      simp only [Bool.and_eq_true] at hcond
      exact hcond.1
    · simp at h
  · simp at h

/-- If the detector is armed after `Magic::key`, it either was armed
already or every chord key is held in the new state. -/
theorem magic_key_armed_src (m : Magic) (k : Nat) (v : Int)
    (h : (m.key k v).1.armed = true) :
    m.armed = true ∨ (m.key k v).1.allDown = true := by
  unfold Magic.key at h ⊢
  split at h
  · split at h <;> rename_i hcond
    · simp at h
    · simp only [Bool.or_eq_true] at h
      rcases h with h1 | h1
      · exact Or.inl h1
      · rw [if_pos ?_, if_neg hcond]
        · exact Or.inr (by simpa [Magic.allDown] using h1)
        · assumption
  · exact Or.inl h

end Hoip

namespace Hoip

/-- The state list of a trace starts with the starting state. -/
theorem magic_states_all_head (m : Magic) (evts : List (Nat × Int))
    (p : Magic → Bool) (h : (m.states evts).all p = true) : p m = true := by
  cases evts with
  | nil => simpa [Magic.states] using h
  | cons e rest =>
    obtain ⟨k, v⟩ := e
    simp only [Magic.states, List.all_cons, Bool.and_eq_true] at h
    exact h.1

/-- If the detector starts unarmed and no state along the trace ever has
every chord key held, no event of the trace signals. -/
theorem magic_no_press_no_signal (evts : List (Nat × Int)) (m : Magic)
    (hm : m.armed = false)
    (hstates : (m.states evts).all (fun st => !st.allDown) = true) :
    (m.run evts).all (fun sig => !sig) = true := by
  induction evts generalizing m with
  | nil => rfl
  | cons e rest ih =>
    obtain ⟨k, v⟩ := e
    simp only [Magic.states, List.all_cons, Bool.and_eq_true] at hstates
    simp only [Magic.run, List.all_cons, Bool.and_eq_true]
    have hnext : ((m.key k v).1.states rest).all (fun st => !st.allDown) = true :=
      hstates.2
    refine ⟨?_, ?_⟩
    · cases hsig : (m.key k v).2
      · rfl
      · have := magic_key_sig_armed m k v hsig
        rw [hm] at this
        exact absurd this (by simp)
    · refine ih _ ?_ hnext
      cases harm : (m.key k v).1.armed
      · rfl
      · rcases magic_key_armed_src m k v harm with h1 | h1
        · rw [hm] at h1; exact absurd h1 (by simp)
        · have hhead := magic_states_all_head _ rest _ hnext
          rw [h1] at hhead
          exact absurd hhead (by simp)

end Hoip

namespace Hoip

/-- C4: the chord detector signals iff the chord was armed (every chord
key simultaneously non-zero at some earlier state) and every chord key
has just returned to zero: a key with no chord entry leaves the state
untouched; the chord key set never changes; with no fully-pressed state
along a trace, no event signals; a signal happens exactly when the
detector is armed and the updated map is all-zero; and the S4 trace for
chord `{KEY_1..KEY_4}` signals exactly once, on the final event. -/
theorem magic_chord_detector :
    (∀ (m : Magic) (k : Nat) (v : Int),
      m.keys.lookup k = none → m.key k v = (m, false)) ∧
    (∀ (m : Magic) (k : Nat) (v : Int),
      (m.key k v).1.keys.map Prod.fst = m.keys.map Prod.fst) ∧
    (∀ (ks : List Nat) (evts : List (Nat × Int)),
      ((Magic.from_iter ks).states evts).all (fun st => !st.allDown) = true →
      ((Magic.from_iter ks).run evts).all (fun sig => !sig) = true) ∧
    (∀ (m : Magic) (k : Nat) (v : Int),
      ((m.key k v).2 = true ↔
        ((m.keys.lookup k).isSome = true ∧ m.armed = true ∧
          (Magic.mk (m.updKeys k v) m.armed).allUp = true))) ∧
    ((Magic.from_iter [1, 2, 3, 4]).run
        [(1, 1), (2, 1), (3, 1), (4, 1), (1, 0), (2, 0), (3, 0), (4, 0)] =
      [false, false, false, false, false, false, false, true]) := by
  have hfst : ∀ (m : Magic) (k : Nat) (v : Int),
      (m.updKeys k v).map Prod.fst = m.keys.map Prod.fst := by
    intro m k v
    unfold Magic.updKeys
    rw [List.map_map]
    apply List.map_congr_left
    intro p _
    by_cases hp : p.1 = k <;> simp [hp]
  refine ⟨?_, ?_, ?_, ?_, ?_⟩
  · intro m k v h
    unfold Magic.key
    rw [if_neg (by simp [h])]
  · intro m k v
    unfold Magic.key
    split
    · split <;> simpa using hfst m k v
    · rfl
  · intro ks evts h
    exact magic_no_press_no_signal evts _ rfl h
  · intro m k v
    unfold Magic.key
    by_cases h1 : (m.keys.lookup k).isSome = true
    · rw [if_pos h1]
      by_cases h2 : (m.armed && (Magic.mk (m.updKeys k v) m.armed).allUp) = true
      · rw [if_pos h2]
        simp only [Bool.and_eq_true] at h2
        constructor
        · intro _
          exact ⟨h1, h2.1, h2.2⟩
        · intro _
          rfl
      · rw [if_neg h2]
        simp only [Bool.and_eq_true, not_and] at h2
        constructor
        · intro hfalse
          exact absurd hfalse (by simp)
        · rintro ⟨_, ha, hu⟩
          exact absurd hu (h2 ha)
    · rw [if_neg h1]
      simp [h1]
  · decide

/-- Witness for C4: a chord key that never goes down never signals, and
an off-chord key leaves the initial state untouched. -/
theorem magic_chord_detector_witness :
    ((Magic.from_iter [1]).run [(1, 0)]).all (fun sig => !sig) = true ∧
    (Magic.from_iter [1]).key 2 5 = (Magic.from_iter [1], false) :=
  ⟨magic_chord_detector.2.2.1 [1] [(1, 0)] (by decide),
   magic_chord_detector.1 (Magic.from_iter [1]) 2 5 (by decide)⟩

end Hoip

namespace Hoip

/-- C3: at any exit point of the client connection loop (after any list
of decoded events has been processed), the drop guard produces exactly
one synthetic key-up event `(EV_KEY, k, 0)` for every key `k` in the
`pressed_keys` set — and no other event — and leaves the set empty,
whether or not the emission succeeded. -/
theorem client_stuck_key_cleanup (evts : List Event) (emitOk : Bool) :
    (dropGuardRun (ClientSt.init.run evts).pressed_keys emitOk).2 = ∅ ∧
    (dropGuardRun (ClientSt.init.run evts).pressed_keys emitOk).1 =
      ((ClientSt.init.run evts).pressed_keys.sort (· ≤ ·)).map
        (fun k => ⟨EV_KEY, k, 0⟩) ∧
    (∀ k : Nat,
      (dropGuardRun (ClientSt.init.run evts).pressed_keys emitOk).1.count
          ⟨EV_KEY, k, 0⟩ =
        if k ∈ (ClientSt.init.run evts).pressed_keys then 1 else 0) ∧
    ((dropGuardRun (ClientSt.init.run evts).pressed_keys emitOk).1.all
      (fun e => e.type == EV_KEY && e.value == 0)) = true := by
  set pressed := (ClientSt.init.run evts).pressed_keys with hp
  have hinj : Function.Injective (fun k : Nat => (⟨EV_KEY, k, 0⟩ : Event)) := by
    intro a b h
    simpa using h
  refine ⟨by cases emitOk <;> rfl, rfl, ?_, ?_⟩
  · intro k
    unfold dropGuardRun dropGuardEvents
    have hcount := List.count_map_of_injective (pressed.sort (· ≤ ·))
      (fun k : Nat => (⟨EV_KEY, k, 0⟩ : Event)) hinj k
    simp only at hcount ⊢
    rw [hcount]
    by_cases hk : k ∈ pressed
    · rw [if_pos hk]
      exact List.count_eq_one_of_mem (pressed.sort_nodup _)
        ((Finset.mem_sort _).mpr hk)
    · rw [if_neg hk]
      exact List.count_eq_zero_of_not_mem
        (fun hmem => hk ((Finset.mem_sort _).mp hmem))
  · unfold dropGuardRun dropGuardEvents
    simp [EV_KEY]

end Hoip

namespace Hoip

/-- C5: in discovery mode, the cache-timeout arm of the `tokio::select!`
race is enabled only when the (pruned) cache is non-empty; when the
timeout wins, the step pops the cache head and yields it, pushing it to
the back; and every address the step yields successfully ends up at the
back of the cache. -/
theorem selector_cache_timeout_race :
    (∀ (cache bad : List Addr) (script : List DiscItem),
      cache.filter (fun e => !bad.contains e) = [] →
      selStep cache bad script .timeout = none) ∧
    (∀ (cache bad : List Addr) (script : List DiscItem) (peer : Addr)
      (rest : List Addr),
      cache.filter (fun e => !bad.contains e) = peer :: rest →
      selStep cache bad script .timeout = some (some ⟨.ok peer, rest ++ [peer], []⟩)) ∧
    (∀ (cache bad : List Addr) (script : List DiscItem) (w : RaceWinner)
      (y : SelYield) (a : Addr),
      selStep cache bad script w = some (some y) → y.item = .ok a →
      y.cache.getLast? = some a) := by
  refine ⟨?_, ?_, ?_⟩
  · intro cache bad script h
    simp only [selStep, h]
  · intro cache bad script peer rest h
    simp only [selStep, h]
  · intro cache bad script w y a hstep hitem
    cases w with
    | tryNext =>
      simp only [selStep] at hstep
      cases ht : tryNextLoop (cache.filter (fun e => !bad.contains e)) script with
      | none => rw [ht] at hstep; simp at hstep
      | some item =>
        cases item with
        | ok b =>
          rw [ht] at hstep
          simp only [Option.some.injEq] at hstep
          rw [← hstep] at hitem ⊢
          simp only [DiscItem.ok.injEq] at hitem
          rw [hitem] at *
          exact List.getLast?_concat _
        | err =>
          rw [ht] at hstep
          simp only [Option.some.injEq] at hstep
          rw [← hstep] at hitem
          cases hitem
    | discoverErr =>
      simp only [selStep, Option.some.injEq] at hstep
      rw [← hstep] at hitem
      cases hitem
    | timeout =>
      simp only [selStep] at hstep
      cases hc : cache.filter (fun e => !bad.contains e) with
      | nil => rw [hc] at hstep; cases hstep
      | cons peer rest =>
        rw [hc] at hstep
        simp only [Option.some.injEq] at hstep
        rw [← hstep] at hitem ⊢
        simp only [DiscItem.ok.injEq] at hitem
        rw [hitem] at *
        exact List.getLast?_concat _

/-- Witness for C5 at a concrete state: with cache `[7, 8]` and empty
blacklist, a winning timeout yields `7` and rotates the cache to
`[8, 7]`. -/
theorem selector_cache_timeout_race_witness :
    ([7, 8] : List Addr).filter (fun e => !([] : List Addr).contains e) = [7, 8] ∧
    selStep [7, 8] [] [] .timeout = some (some ⟨.ok 7, [8, 7], []⟩) :=
  ⟨rfl, selector_cache_timeout_race.2.1 [7, 8] [] [] 7 [8] rfl⟩

end Hoip

namespace Hoip

/-- C2 counterexample: address 5 fails a connection attempt and is
blacklisted (`blacklistInsert [] 5 = [5]`); at the very next selection
step (cache `[5]`, blacklist `[5]`, `discovered()` yielding 5 again) the
selector yields `5` *again*, and the step leaves the blacklist empty — so
the blacklist does not hold every address that has failed since discovery
began, and a blacklisted address can be yielded again as soon as it is
rediscovered. -/
theorem blacklist_cleared_counterexample :
    blacklistInsert [] 5 = [5] ∧
    selStep [5] [5] [DiscItem.ok 5] RaceWinner.tryNext =
      some (some ⟨DiscItem.ok 5, [5], []⟩) ∧
    ¬ (5 : Addr) ∈ (⟨DiscItem.ok 5, [5], []⟩ : SelYield).bad := by
  refine ⟨rfl, rfl, by simp⟩

/-- C2 amended: each selection step first removes every blacklisted
address from the cache and then *clears* the blacklist, so the blacklist
only holds addresses that failed since the previous selection step; a
blacklisted address is never served from the cache at the step following
its blacklisting (the timeout arm yields only non-blacklisted addresses),
though a fresh rediscovery may yield it again. -/
theorem blacklist_pruned_each_step (cache bad : List Addr)
    (script : List DiscItem) (w : RaceWinner) :
    (∀ y : SelYield, selStep cache bad script w = some (some y) → y.bad = []) ∧
    (∀ a : Addr, a ∈ bad → a ∉ cache.filter (fun e => !bad.contains e)) ∧
    (∀ (y : SelYield) (a : Addr),
      selStep cache bad script .timeout = some (some y) → y.item = .ok a →
      a ∉ bad) := by
  have hfilter : ∀ a : Addr, a ∈ bad → a ∉ cache.filter (fun e => !bad.contains e) := by
    intro a ha hmem
    have := (List.mem_filter.mp hmem).2
    simp at this
    exact this ha
  refine ⟨?_, hfilter, ?_⟩
  · intro y hstep
    cases w with
    | tryNext =>
      simp only [selStep] at hstep
      cases ht : tryNextLoop (cache.filter (fun e => !bad.contains e)) script with
      | none => rw [ht] at hstep; simp at hstep
      | some item =>
        cases item <;>
          (rw [ht] at hstep; simp only [Option.some.injEq] at hstep;
            rw [← hstep])
    | discoverErr =>
      simp only [selStep, Option.some.injEq] at hstep
      rw [← hstep]
    | timeout =>
      simp only [selStep] at hstep
      cases hc : cache.filter (fun e => !bad.contains e) with
      | nil => rw [hc] at hstep; cases hstep
      | cons peer rest =>
        rw [hc] at hstep
        simp only [Option.some.injEq] at hstep
        rw [← hstep]
  · intro y a hstep hitem ha
    simp only [selStep] at hstep
    cases hc : cache.filter (fun e => !bad.contains e) with
    | nil => rw [hc] at hstep; cases hstep
    | cons peer rest =>
      rw [hc] at hstep
      simp only [Option.some.injEq] at hstep
      rw [← hstep] at hitem
      simp only [DiscItem.ok.injEq] at hitem
      refine hfilter a ha ?_
      rw [hc, ← hitem]
      exact List.mem_cons_self _ _

/-- Witness for the amended C2: with cache `[5, 6]` and blacklist `[5]`,
a winning timeout yields `6` — not the blacklisted `5` — and clears the
blacklist. -/
theorem blacklist_pruned_each_step_witness :
    selStep [5, 6] [5] [] .timeout = some (some ⟨.ok 6, [6], []⟩) ∧
    (⟨DiscItem.ok 6, [6], []⟩ : SelYield).bad = [] ∧
    ¬ (6 : Addr) ∈ ([5] : List Addr) :=
  ⟨rfl,
   (blacklist_pruned_each_step [5, 6] [5] [] .timeout).1 ⟨.ok 6, [6], []⟩ rfl,
   (blacklist_pruned_each_step [5, 6] [5] [] .timeout).2.2 ⟨.ok 6, [6], []⟩ 6 rfl rfl⟩

end Hoip
